import Mathlib

/-!
Shallow embedding of the Lyapunov-analysis core of the `eom` repository
(`src/lyapunov.rs` and `src/adaptor.rs`), over exact real arithmetic.
Machine floats (`f64`) are modelled by `ℝ`.  The external dense
linear-algebra kernels used by the source (ndarray-linalg's QR
factorization and upper-triangular solve) are modelled as parameters of
the embedding, since the specification places their implementation out of
scope and treats them as assumed-correct primitives.  The lazy infinite
iterators of the source (`itertools::iterate`, Rust `Iterator::scan`,
`skip`, `take`) are modelled by finite lists of exactly the length the
pipeline consumes.
-/

open scoped BigOperators

/-- Phase-space state vector of dimension `n` (an `Ix1` ndarray of `f64`). -/
abbrev Vec (n : ℕ) : Type := Fin n → ℝ

/-- Dense `n × n` matrix (an `Ix2` ndarray of `f64`). -/
abbrev Mat (n : ℕ) : Type := Matrix (Fin n) (Fin n) ℝ

/-- L2 norm of a vector, ndarray-linalg's `norm_l2`. -/
noncomputable def norml2 {n : ℕ} (v : Vec n) : ℝ := Real.sqrt (∑ i, v i ^ 2)

/-- The state-advance capability: the `TimeEvolution<f64, Ix1>` trait with
its `iterate` (state advance) operation and its `get_dt` time step. -/
structure TEO (n : ℕ) : Type where
  iterate : Vec n → Vec n
  get_dt : ℝ

/-- External dense-linear-algebra primitives used by `lyapunov.rs`:
`qr` (ndarray-linalg QR factorization, returning `(Q, R)`) and
`solve_upper` (solve of the upper-triangular system `R · X = B`).
The spec declares the kernel implementation out of scope, assumed
available as a correct primitive, so both are parameters. -/
structure LinAlg (n : ℕ) : Type where
  qr : Mat n → Mat n × Mat n
  solve_upper : Mat n → Mat n → Mat n

/-- Finite prefix of `itertools::iterate(x0, f)`: the lazy infinite
sequence `x0, f x0, f (f x0), ...` (the seed is yielded first),
truncated to the `m` elements the consuming pipeline demands. -/
def orbitList {α : Type} (f : α → α) : α → ℕ → List α
  | _, 0 => []
  | x, m + 1 => x :: orbitList f (f x) m

/-- Rust `Iterator::scan`: threads a state through the list, emitting one
output per input (the closure in the source always returns `Some`). -/
def scanl {σ α β : Type} (step : σ → α → σ × β) : σ → List α → List β
  | _, [] => []
  | s, a :: as => (step s a).2 :: scanl step (step s a).1 as

/-- Finite prefix of the `TimeSeries` adaptor of `adaptor.rs`: its
`Iterator::next` first advances the internal state
(`self.iterate()`) and then emits a copy of the new state, so the
first emitted element is `advance x0`, not `x0`. -/
def timeSeriesList {n : ℕ} (teo : TEO n) : Vec n → ℕ → List (Vec n)
  | _, 0 => []
  | x, m + 1 => teo.iterate x :: timeSeriesList teo (teo.iterate x) m

/-- The numerical-differentiation Jacobian operator (struct `Jacobian`):
the wrapped capability `f`, the base point `x`, the advanced base point
`fx`, and the perturbation scale `alpha`. -/
structure Jacobian (n : ℕ) : Type where
  f : TEO n
  x : Vec n
  fx : Vec n
  alpha : ℝ

/-- Construction of the Jacobian operator (`NumDifferentiable::jacobian`):
`fx = advance(x)` is computed once here. -/
noncomputable def TEO.jacobian {n : ℕ} (teo : TEO n) (x : Vec n) (alpha : ℝ) : Jacobian n :=
  { f := teo, x := x, fx := teo.iterate x, alpha := alpha }

/-- Directional product of the Jacobian operator against one vector
(`impl Dot<ArrayBase<S, Ix1>> for Jacobian`):
`nrm = max(‖x‖, ‖dx‖)`, scale `alpha / nrm`, perturbed point
`(alpha/nrm)·dx + x`, result `(advance(perturbed) - fx) / (alpha/nrm)`.
The source has no guard for `nrm = 0`. -/
noncomputable def Jacobian.dot {n : ℕ} (j : Jacobian n) (dx : Vec n) : Vec n :=
  fun i =>
    (j.f.iterate (fun i' => (j.alpha / max (norml2 j.x) (norml2 dx)) * dx i' + j.x i') i
        - j.fx i)
      / (j.alpha / max (norml2 j.x) (norml2 dx))

/-- Directional product against a matrix of column directions
(`impl Dot<ArrayBase<S, Ix2>> for Jacobian`): the vector operation is
applied to each column independently and the results are reassembled
column-wise (`hstack`). -/
noncomputable def Jacobian.dotM {n : ℕ} (j : Jacobian n) (dxs : Mat n) : Mat n :=
  Matrix.of fun i k => j.dot (fun i' => dxs i' k) i

/-- Column normalization, ndarray-linalg's
`normalize(m, NormalizeAxis::Column)`: divides each column by its L2 norm
and also returns the vector of column norms. -/
noncomputable def normalizeCol {n : ℕ} (m : Mat n) : Mat n × Vec n :=
  (Matrix.of fun i k => m i k / norml2 (fun i' => m i' k),
   fun k => norml2 (fun i' => m i' k))

/-- One backward-pass step (`fn clv_backward`): solve the
upper-triangular system `R · cd = C` via the external primitive,
column-normalize the solution, and return the normalized matrix together
with the elementwise reciprocals of the pre-normalization column norms. -/
noncomputable def clv_backward {n : ℕ} (la : LinAlg n) (c : Mat n) (r : Mat n) :
    Mat n × Vec n :=
  ((normalizeCol (la.solve_upper r c)).1,
   fun k => 1 / (normalizeCol (la.solve_upper r c)).2 k)

/-- One step of the forward loop of `exponents`: build the Jacobian at the
consumed orbit point `x`, multiply it against the current frame `q`,
QR-factorize, store the new frame as the scan state, and emit the
record `d = ln |diag R|`. -/
noncomputable def expStep {n : ℕ} (la : LinAlg n) (teo : TEO n) (alpha : ℝ)
    (q : Mat n) (x : Vec n) : Mat n × Vec n :=
  ((la.qr ((teo.jacobian x alpha).dotM q)).1,
   fun i => Real.log |((la.qr ((teo.jacobian x alpha).dotM q)).2).diag i|)

/-- The Lyapunov-exponent estimator (`pub fn exponents`): scan the orbit
`iterate(x0, advance)` with `expStep` starting from the identity frame,
skip the first `duration / 10` records, take the next `duration` records,
sum them elementwise, and divide by `dt * duration`.  The orbit prefix has
length `duration / 10 + duration`, exactly the number of elements the
lazy `skip`/`take` pipeline of the source consumes. -/
noncomputable def exponents {n : ℕ} (la : LinAlg n) (teo : TEO n) (x0 : Vec n)
    (alpha : ℝ) (duration : ℕ) : Vec n :=
  fun i =>
    ((((scanl (expStep la teo alpha) 1
          (orbitList teo.iterate x0 (duration / 10 + duration))).drop
            (duration / 10)).take duration).foldl (fun a b => a + b) (0 : Vec n)) i
      / (teo.get_dt * (duration : ℝ))

/-- One step of the forward loop of `clv`: identical frame update to
`expStep`, but the emitted record is the triple
`(x, Q before this step's update, R)` — the source's
`let q = replace(q, q_next); Some((x, q, r))` emits the old frame. -/
noncomputable def clvStep {n : ℕ} (la : LinAlg n) (teo : TEO n) (alpha : ℝ)
    (q : Mat n) (x : Vec n) : Mat n × (Vec n × Mat n × Mat n) :=
  ((la.qr ((teo.jacobian x alpha).dotM q)).1,
   (x, q, (la.qr ((teo.jacobian x alpha).dotM q)).2))

/-- The retained forward series of `clv` (`qr_series` in the source): scan
the orbit with `clvStep` from the identity frame, then
`skip(duration / 10)` and `take(duration + duration / 10)`.  The orbit
prefix has length `duration / 10 + (duration + duration / 10)`, exactly
what the lazy pipeline consumes. -/
noncomputable def clvForwardSeries {n : ℕ} (la : LinAlg n) (teo : TEO n)
    (x0 : Vec n) (alpha : ℝ) (duration : ℕ) : List (Vec n × Mat n × Mat n) :=
  ((scanl (clvStep la teo alpha) 1
      (orbitList teo.iterate x0
        (duration / 10 + (duration + duration / 10)))).drop
          (duration / 10)).take (duration + duration / 10)

/-- One step of the backward scan of `clv`: run `clv_backward` on the
current coefficient matrix and the stored `R`, emit
`(x, V = Q · C_now, f)`, and thread the normalized `C_now` as the next
coefficient matrix (`*c = c_now`). -/
noncomputable def clvBackStep {n : ℕ} (la : LinAlg n) (c : Mat n)
    (t : Vec n × Mat n × Mat n) : Mat n × (Vec n × Mat n × Vec n) :=
  ((clv_backward la c t.2.2).1,
   (t.1, t.2.1 * (clv_backward la c t.2.2).1, (clv_backward la c t.2.2).2))

/-- The covariant-Lyapunov-vector estimator (`pub fn clv`): scan the
reversed retained forward series with `clvBackStep` starting from the
identity coefficient matrix, then drop the first `duration / 10` emitted
records and reverse the remainder into chronological order. -/
noncomputable def clv {n : ℕ} (la : LinAlg n) (teo : TEO n) (x0 : Vec n)
    (alpha : ℝ) (duration : ℕ) : List (Vec n × Mat n × Vec n) :=
  ((scanl (clvBackStep la) 1
      (clvForwardSeries la teo x0 alpha duration).reverse).drop
        (duration / 10)).reverse

/-- Modelled from the spec (claim C4): a forward pass that runs over
`duration + duration / 10` steps and retains the triple of every one of
those steps, with no initial skip.  Compared against the source's
`clvForwardSeries`, which additionally skips the first `duration / 10`
triples. -/
noncomputable def clvForwardSeriesSpec {n : ℕ} (la : LinAlg n) (teo : TEO n)
    (x0 : Vec n) (alpha : ℝ) (duration : ℕ) : List (Vec n × Mat n × Mat n) :=
  scanl (clvStep la teo alpha) 1
    (orbitList teo.iterate x0 (duration + duration / 10))

/-- The list of base points at which `exponents` constructs its Jacobian
operators: `exponents` is exactly the scan of `expStep` over this list,
and `expStep q x` builds `teo.jacobian x alpha`. -/
def expJacobianBases {n : ℕ} (teo : TEO n) (x0 : Vec n) (duration : ℕ) :
    List (Vec n) :=
  orbitList teo.iterate x0 (duration / 10 + duration)

/-- The indexed forward frame recurrence: `expState t` is the orthonormal
frame before step `t` of the forward loop (both in `exponents` and in
`clv`, whose scans update the frame identically): the identity at `t = 0`,
and the `Q` factor of step `t`'s QR update afterwards. -/
noncomputable def expState {n : ℕ} (la : LinAlg n) (teo : TEO n) (x0 : Vec n)
    (alpha : ℝ) : ℕ → Mat n
  | 0 => 1
  | t + 1 =>
      (la.qr ((teo.jacobian (teo.iterate^[t] x0) alpha).dotM
        (expState la teo x0 alpha t))).1

/-- The triangular factor produced by step `t` of the forward loop. -/
noncomputable def stepR {n : ℕ} (la : LinAlg n) (teo : TEO n) (x0 : Vec n)
    (alpha : ℝ) (t : ℕ) : Mat n :=
  (la.qr ((teo.jacobian (teo.iterate^[t] x0) alpha).dotM
    (expState la teo x0 alpha t))).2

/-- The log-growth record of step `t` of the forward loop:
`ln |diag R_t|` elementwise. -/
noncomputable def logDiagR {n : ℕ} (la : LinAlg n) (teo : TEO n) (x0 : Vec n)
    (alpha : ℝ) (t : ℕ) : Vec n :=
  fun i => Real.log |(stepR la teo x0 alpha t).diag i|

/-! ## Basic facts about the list combinators -/

lemma orbitList_eq_map_range {α : Type} (f : α → α) :
    ∀ (m : ℕ) (x : α), orbitList f x m = (List.range m).map (fun k => f^[k] x) := by
  intro m
  induction m with
  | zero => intro x; rfl
  | succ m ih =>
      intro x
      rw [orbitList, ih (f x), List.range_succ_eq_map, List.map_cons, List.map_map]
      refine congrArg₂ _ rfl ?_
      have hfun : (fun k => f^[k] (f x)) = fun k => f^[Nat.succ k] x := by
        funext k
        rw [Function.iterate_succ_apply]
      rw [hfun]
      rfl

lemma orbitList_length {α : Type} (f : α → α) (x : α) (m : ℕ) :
    (orbitList f x m).length = m := by
  rw [orbitList_eq_map_range, List.length_map, List.length_range]

lemma scanl_length {σ α β : Type} (step : σ → α → σ × β) :
    ∀ (l : List α) (s : σ), (scanl step s l).length = l.length := by
  intro l
  induction l with
  | nil => intro s; rfl
  | cons a as ih => intro s; rw [scanl, List.length_cons, List.length_cons, ih]

lemma scanl_map_emit {σ α β γ : Type} (step : σ → α → σ × β) (pr : β → γ)
    (g : α → γ) (h : ∀ s a, pr (step s a).2 = g a) :
    ∀ (l : List α) (s : σ), (scanl step s l).map pr = l.map g := by
  intro l
  induction l with
  | nil => intro s; rfl
  | cons a as ih =>
      intro s
      rw [scanl, List.map_cons, List.map_cons, ih, h]

lemma mem_scanl {σ α β : Type} (step : σ → α → σ × β) :
    ∀ (l : List α) (s : σ) (b : β), b ∈ scanl step s l →
      ∃ a ∈ l, ∃ s' : σ, b = (step s' a).2 := by
  intro l
  induction l with
  | nil => intro s b hb; exact absurd hb (List.not_mem_nil b)
  | cons a as ih =>
      intro s b hb
      rw [scanl, List.mem_cons] at hb
      rcases hb with hb | hb
      · exact ⟨a, List.mem_cons_self a as, s, hb⟩
      · rcases ih (step s a).1 b hb with ⟨a', ha', s', hs'⟩
        exact ⟨a', List.mem_cons_of_mem a ha', s', hs'⟩

lemma foldl_add_eq_sum {M : Type} [AddCommMonoid M] (g : ℕ → M) :
    ∀ (m : ℕ) (init : M),
      ((List.range m).map g).foldl (fun a b => a + b) init
        = init + ∑ k ∈ Finset.range m, g k := by
  intro m
  induction m with
  | zero => intro init; simp
  | succ m ih =>
      intro init
      rw [List.range_succ, List.map_append, List.foldl_append, ih,
        Finset.sum_range_succ]
      simp [add_assoc]

lemma reverse_drop_reverse {γ : Type} (M : List γ) (b : ℕ) :
    (M.reverse.drop b).reverse = M.take (M.length - b) := by
  rw [List.reverse_drop, List.reverse_reverse, List.length_reverse]

/-! ## The forward loop as an indexed recurrence -/

lemma expStep_state_fst {n : ℕ} (la : LinAlg n) (teo : TEO n) (x0 : Vec n)
    (alpha : ℝ) (t : ℕ) :
    (expStep la teo alpha (expState la teo x0 alpha t) (teo.iterate^[t] x0)).1
      = expState la teo x0 alpha (t + 1) := rfl

lemma expStep_state_snd {n : ℕ} (la : LinAlg n) (teo : TEO n) (x0 : Vec n)
    (alpha : ℝ) (t : ℕ) :
    (expStep la teo alpha (expState la teo x0 alpha t) (teo.iterate^[t] x0)).2
      = logDiagR la teo x0 alpha t := rfl

lemma clvStep_state_fst {n : ℕ} (la : LinAlg n) (teo : TEO n) (x0 : Vec n)
    (alpha : ℝ) (t : ℕ) :
    (clvStep la teo alpha (expState la teo x0 alpha t) (teo.iterate^[t] x0)).1
      = expState la teo x0 alpha (t + 1) := rfl

lemma clvStep_state_snd {n : ℕ} (la : LinAlg n) (teo : TEO n) (x0 : Vec n)
    (alpha : ℝ) (t : ℕ) :
    (clvStep la teo alpha (expState la teo x0 alpha t) (teo.iterate^[t] x0)).2
      = (teo.iterate^[t] x0, expState la teo x0 alpha t, stepR la teo x0 alpha t) := rfl

lemma scanl_expStep_eq {n : ℕ} (la : LinAlg n) (teo : TEO n) (x0 : Vec n)
    (alpha : ℝ) :
    ∀ (m t0 : ℕ),
      scanl (expStep la teo alpha) (expState la teo x0 alpha t0)
          (orbitList teo.iterate (teo.iterate^[t0] x0) m)
        = (List.range m).map (fun k => logDiagR la teo x0 alpha (t0 + k)) := by
  intro m
  induction m with
  | zero => intro t0; rfl
  | succ m ih =>
      intro t0
      rw [orbitList, scanl, expStep_state_fst, expStep_state_snd,
        ← Function.iterate_succ_apply' teo.iterate t0 x0, ih (t0 + 1),
        List.range_succ_eq_map, List.map_cons, List.map_map]
      refine congrArg₂ _ (by rw [Nat.add_zero]) ?_
      have hfun : ((fun k => logDiagR la teo x0 alpha (t0 + k)) ∘ Nat.succ)
          = fun k => logDiagR la teo x0 alpha (t0 + 1 + k) := by
        funext k
        show logDiagR la teo x0 alpha (t0 + Nat.succ k) = _
        have hk : t0 + Nat.succ k = t0 + 1 + k := by omega
        rw [hk]
      rw [hfun]

lemma scanl_clvStep_eq {n : ℕ} (la : LinAlg n) (teo : TEO n) (x0 : Vec n)
    (alpha : ℝ) :
    ∀ (m t0 : ℕ),
      scanl (clvStep la teo alpha) (expState la teo x0 alpha t0)
          (orbitList teo.iterate (teo.iterate^[t0] x0) m)
        = (List.range m).map (fun k =>
            (teo.iterate^[t0 + k] x0, expState la teo x0 alpha (t0 + k),
              stepR la teo x0 alpha (t0 + k))) := by
  intro m
  induction m with
  | zero => intro t0; rfl
  | succ m ih =>
      intro t0
      rw [orbitList, scanl, clvStep_state_fst, clvStep_state_snd,
        ← Function.iterate_succ_apply' teo.iterate t0 x0, ih (t0 + 1),
        List.range_succ_eq_map, List.map_cons, List.map_map]
      refine congrArg₂ _ (by rw [Nat.add_zero]) ?_
      have hfun : ((fun k =>
            (teo.iterate^[t0 + k] x0, expState la teo x0 alpha (t0 + k),
              stepR la teo x0 alpha (t0 + k))) ∘ Nat.succ)
          = fun k =>
            (teo.iterate^[t0 + 1 + k] x0, expState la teo x0 alpha (t0 + 1 + k),
              stepR la teo x0 alpha (t0 + 1 + k)) := by
        funext k
        show (teo.iterate^[t0 + Nat.succ k] x0, _, _) = _
        have hk : t0 + Nat.succ k = t0 + 1 + k := by omega
        rw [hk]
      rw [hfun]

lemma exponents_records_eq {n : ℕ} (la : LinAlg n) (teo : TEO n) (x0 : Vec n)
    (alpha : ℝ) (m : ℕ) :
    scanl (expStep la teo alpha) 1 (orbitList teo.iterate x0 m)
      = (List.range m).map (fun k => logDiagR la teo x0 alpha k) := by
  have h := scanl_expStep_eq la teo x0 alpha m 0
  simp only [Function.iterate_zero_apply, Nat.zero_add] at h
  exact h

lemma clvStep_records_eq {n : ℕ} (la : LinAlg n) (teo : TEO n) (x0 : Vec n)
    (alpha : ℝ) (m : ℕ) :
    scanl (clvStep la teo alpha) 1 (orbitList teo.iterate x0 m)
      = (List.range m).map (fun k =>
          (teo.iterate^[k] x0, expState la teo x0 alpha k,
            stepR la teo x0 alpha k)) := by
  have h := scanl_clvStep_eq la teo x0 alpha m 0
  simp only [Function.iterate_zero_apply, Nat.zero_add] at h
  exact h

lemma clvForwardSeries_eq {n : ℕ} (la : LinAlg n) (teo : TEO n) (x0 : Vec n)
    (alpha : ℝ) (duration : ℕ) :
    clvForwardSeries la teo x0 alpha duration
      = (List.range (duration + duration / 10)).map (fun k =>
          (teo.iterate^[duration / 10 + k] x0,
           expState la teo x0 alpha (duration / 10 + k),
           stepR la teo x0 alpha (duration / 10 + k))) := by
  unfold clvForwardSeries
  rw [clvStep_records_eq, List.range_add, List.map_append,
    List.drop_left' (by rw [List.length_map, List.length_range]),
    List.map_map,
    List.take_of_length_le (by rw [List.length_map, List.length_range]),
    Function.comp_def]

/-! ## Claim C1 -/

/-- C1: for every capability, initial state, `alpha` and `duration`,
`exponents` computes one log-growth record `d_t = ln |diag R_t|` per
forward step, skips the first `duration / 10` records (integer division),
sums the next `duration` records elementwise, and divides the sum by
`dt * duration`. -/
theorem c1_exponents_burnin_average {n : ℕ} (la : LinAlg n) (teo : TEO n)
    (x0 : Vec n) (alpha : ℝ) (duration : ℕ) :
    exponents la teo x0 alpha duration
      = fun i =>
          (∑ k ∈ Finset.range duration,
              logDiagR la teo x0 alpha (duration / 10 + k) i)
            / (teo.get_dt * (duration : ℝ)) := by
  funext i
  unfold exponents
  rw [exponents_records_eq, List.range_add, List.map_append,
    List.drop_left' (by rw [List.length_map, List.length_range]),
    List.map_map,
    List.take_of_length_le (by rw [List.length_map, List.length_range]),
    Function.comp_def, foldl_add_eq_sum, zero_add, Finset.sum_apply]

/-! ## Claim C2 -/

/-- C2: for every base point `x`, direction `dx` and scale `alpha`, the
Jacobian operator stores `fx = advance(x)`, computed once at
construction, and its directional product returns
`(advance(s·dx + x) - fx) / s` with `s = alpha / max(‖x‖, ‖dx‖)`; the
last conjunct records that at `x = 0`, `dx = 0` the scale's divisor
`max(‖x‖, ‖dx‖)` is exactly `0` (the source has no floor guard). -/
theorem c2_jacobian_directional_product {n : ℕ} (teo : TEO n) (x dx : Vec n)
    (alpha : ℝ) :
    (teo.jacobian x alpha).fx = teo.iterate x ∧
    (teo.jacobian x alpha).dot dx
      = (fun i =>
          (teo.iterate
              (fun i' => (alpha / max (norml2 x) (norml2 dx)) * dx i' + x i') i
            - teo.iterate x i)
            / (alpha / max (norml2 x) (norml2 dx))) ∧
    max (norml2 (0 : Vec n)) (norml2 (0 : Vec n)) = 0 := by
  refine ⟨rfl, rfl, ?_⟩
  have h0 : norml2 (0 : Vec n) = 0 := by
    unfold norml2
    simp
  rw [h0, max_self]

/-! ## Claim C3 -/

/-- C3: `clv` returns exactly `duration` records, obtained by dropping
the first `duration / 10` records emitted by the backward pass (those of
the latest time steps) and reversing the remainder into chronological
order: the k-th returned record carries the state of forward step
`duration / 10 + k`.  The per-record shapes (state of length n, matrix
n×n, growth-rate vector of length n) are enforced by the types
`Vec n × Mat n × Vec n`. -/
theorem c3_clv_record_count_and_order {n : ℕ} (la : LinAlg n) (teo : TEO n)
    (x0 : Vec n) (alpha : ℝ) (duration : ℕ) :
    (clv la teo x0 alpha duration).length = duration ∧
    (clv la teo x0 alpha duration).map (fun r => r.1)
      = (List.range duration).map
          (fun k => teo.iterate^[duration / 10 + k] x0) := by
  have hser := clvForwardSeries_eq la teo x0 alpha duration
  have hlen : (clvForwardSeries la teo x0 alpha duration).length
      = duration + duration / 10 := by
    rw [hser, List.length_map, List.length_range]
  constructor
  · unfold clv
    rw [List.length_reverse, List.length_drop, scanl_length,
      List.length_reverse, hlen]
    omega
  · unfold clv
    rw [List.map_reverse, List.map_drop,
      scanl_map_emit (clvBackStep la) (fun r => r.1) (fun t => t.1)
        (fun _ _ => rfl),
      List.map_reverse, reverse_drop_reverse, hser, List.map_map,
      List.length_map, List.length_range, Nat.add_sub_cancel,
      ← List.map_take, List.take_range, Nat.min_eq_left le_self_add,
      Function.comp_def]

/-! ## Concrete instances used by counterexamples and witnesses -/

/-- Concrete 1-dimensional capability with `advance(x) = x + 1`, `dt = 1`. -/
noncomputable def teoShift : TEO 1 :=
  { iterate := fun x => fun i => x i + 1, get_dt := 1 }

/-- Concrete 1-dimensional capability with `advance(x) = 2·x + 1`, `dt = 1`. -/
noncomputable def teoAffine : TEO 1 :=
  { iterate := fun x => fun i => 2 * x i + 1, get_dt := 1 }

/-- Concrete instance of the external primitives for counterexamples:
`qr A = (A, A)` and `solve_upper r c = c`. -/
noncomputable def laTrivial : LinAlg 1 :=
  { qr := fun a => (a, a), solve_upper := fun _ c => c }

/-- Concrete instance of the external primitives whose `qr` always
returns the identity `Q` (orthonormal columns) and whose triangular solve
always returns the identity matrix (nonzero columns). -/
noncomputable def laId : LinAlg 1 :=
  { qr := fun a => (1, a), solve_upper := fun _ _ => 1 }

/-- Zero initial state in dimension 1. -/
noncomputable def z0 : Vec 1 := fun _ => 0

/-! ## Claim C9 -/

lemma exponents_duration_zero {n : ℕ} (la : LinAlg n) (teo : TEO n)
    (x0 : Vec n) (alpha : ℝ) : exponents la teo x0 alpha 0 = 0 := by
  funext i
  show ((((scanl (expStep la teo alpha) 1
      (orbitList teo.iterate x0 (0 / 10 + 0))).drop (0 / 10)).take 0).foldl
        (fun a b => a + b) (0 : Vec n)) i / (teo.get_dt * ((0 : ℕ) : ℝ))
    = (0 : Vec n) i
  rw [List.take_zero, List.foldl_nil]
  simp

lemma clv_duration_zero {n : ℕ} (la : LinAlg n) (teo : TEO n)
    (x0 : Vec n) (alpha : ℝ) : clv la teo x0 alpha 0 = [] := by
  unfold clv clvForwardSeries
  rw [Nat.zero_div, Nat.add_zero, List.take_zero]
  rfl

/-- C9 (amended): neither `exponents` nor `clv` performs any parameter
validation; there is no error path in their signatures, and for every
capability, state, `alpha` (including `alpha ≤ 0`) and `duration` they
return a plain result.  In particular at `duration = 0` — which the
original claim says must be rejected — `exponents` returns the zero
vector (the empty sum divided by `dt·0`, division by zero giving the
model's junk value 0) and `clv` returns the empty list. -/
theorem c9_amended_no_parameter_validation {n : ℕ} (la : LinAlg n)
    (teo : TEO n) (x0 : Vec n) (alpha : ℝ) :
    exponents la teo x0 alpha 0 = 0 ∧ clv la teo x0 alpha 0 = [] :=
  ⟨exponents_duration_zero la teo x0 alpha, clv_duration_zero la teo x0 alpha⟩

/-- C9 counterexample: at the concrete invalid parameters
`alpha = -1 ≤ 0` and `duration = 0`, both functions run to completion and
return ordinary values (the zero vector and the empty list) instead of
surfacing an Invalid-parameter error before iteration; no rejection
happens. -/
theorem c9_counterexample_invalid_params_accepted :
    exponents laTrivial teoShift z0 (-1) 0 = 0 ∧
    clv laTrivial teoShift z0 (-1) 0 = [] :=
  ⟨exponents_duration_zero laTrivial teoShift z0 (-1),
   clv_duration_zero laTrivial teoShift z0 (-1)⟩

/-! ## Indexing helpers -/

lemma get?_map_range {β : Type} (g : ℕ → β) (m i : ℕ) :
    ((List.range m).map g).get? i = if i < m then some (g i) else none := by
  rcases Nat.lt_or_ge i m with h | h
  · rw [List.get?_eq_getElem?, List.getElem?_map, List.getElem?_range h,
      if_pos h]
    rfl
  · rw [List.get?_eq_getElem?,
      List.getElem?_eq_none
        (by rw [List.length_map, List.length_range]; exact h),
      if_neg (Nat.not_lt.2 h)]

lemma head?_map_range {β : Type} (g : ℕ → β) (m : ℕ) (h : 0 < m) :
    ((List.range m).map g).head? = some (g 0) := by
  rw [List.head?_eq_getElem?, ← List.get?_eq_getElem?, get?_map_range,
    if_pos h]

lemma timeSeriesList_eq_map_range {n : ℕ} (teo : TEO n) :
    ∀ (m : ℕ) (x : Vec n),
      timeSeriesList teo x m
        = (List.range m).map (fun k => teo.iterate^[k + 1] x) := by
  intro m
  induction m with
  | zero => intro x; rfl
  | succ m ih =>
      intro x
      rw [timeSeriesList, ih (teo.iterate x), List.range_succ_eq_map,
        List.map_cons, List.map_map]
      refine congrArg₂ _ (by rw [Function.iterate_one]) ?_
      have hfun : ((fun k => teo.iterate^[k + 1] x) ∘ Nat.succ)
          = fun k => teo.iterate^[k + 1] (teo.iterate x) := by
        funext k
        show teo.iterate^[Nat.succ k + 1] x = _
        rw [Function.iterate_succ_apply]
      rw [hfun]

/-! ## Claim C4 -/

/-- C4 (amended): the CLV forward pass runs the same loop as the exponent
estimator, consuming `duration/10 + (duration + duration/10)` orbit
steps in total; the first `duration/10` step triples are discarded by the
initial `skip`, and only the triples of steps
`duration/10 .. duration/10 + duration + duration/10 - 1` are retained
for the backward pass. -/
theorem c4_amended_forward_pass_skips_burnin {n : ℕ} (la : LinAlg n)
    (teo : TEO n) (x0 : Vec n) (alpha : ℝ) (duration : ℕ) :
    (orbitList teo.iterate x0
        (duration / 10 + (duration + duration / 10))).length
      = duration / 10 + (duration + duration / 10) ∧
    clvForwardSeries la teo x0 alpha duration
      = (List.range (duration + duration / 10)).map (fun k =>
          (teo.iterate^[duration / 10 + k] x0,
           expState la teo x0 alpha (duration / 10 + k),
           stepR la teo x0 alpha (duration / 10 + k))) :=
  ⟨orbitList_length _ _ _, clvForwardSeries_eq la teo x0 alpha duration⟩

/-- C4 counterexample: at `duration = 10` the first retained triple of
the source's forward pass carries the state `advance x0` (step 1), while
a forward pass that retained every step's triple (clvForwardSeriesSpec,
modelled from the claim) would start with the step-0 triple carrying
`x0`; the step-0 triple is discarded before the backward pass, so the two
series differ. -/
theorem c4_counterexample_step0_triple_discarded :
    ((clvForwardSeries laTrivial teoShift z0 1 10).head?.map fun t => t.1 0)
        = some 1 ∧
    ((clvForwardSeriesSpec laTrivial teoShift z0 1 10).head?.map
        fun t => t.1 0)
        = some 0 ∧
    clvForwardSeries laTrivial teoShift z0 1 10
      ≠ clvForwardSeriesSpec laTrivial teoShift z0 1 10 := by
  have hL : ((clvForwardSeries laTrivial teoShift z0 1 10).head?.map
      fun t => t.1 0) = some 1 := by
    rw [clvForwardSeries_eq, head?_map_range _ _ (by norm_num)]
    norm_num [teoShift, z0]
  have hR : ((clvForwardSeriesSpec laTrivial teoShift z0 1 10).head?.map
      fun t => t.1 0) = some 0 := by
    unfold clvForwardSeriesSpec
    rw [clvStep_records_eq, head?_map_range _ _ (by norm_num)]
    norm_num [z0]
  refine ⟨hL, hR, fun h => ?_⟩
  rw [h, hR] at hL
  exact absurd (Option.some.inj hL) (by norm_num)

/-! ## Claim C8 -/

/-- C8 (amended): the estimators follow the seed-first (emit-then-advance)
pattern of `itertools::iterate`, not the adaptor's advance-then-emit
pattern: `exponents` is exactly the scan pipeline over
`expJacobianBases`, whose position-k element — the base point of the
(k+1)-th Jacobian construction — is `advance^[k] x0`, so the first
Jacobian is built at `x0` itself.  The `TimeSeries` adaptor, by contrast,
emits `advance^[k+1] x0` at position k. -/
theorem c8_amended_seed_first_iteration {n : ℕ} (la : LinAlg n)
    (teo : TEO n) (x0 : Vec n) (alpha : ℝ) (duration k m : ℕ) :
    (exponents la teo x0 alpha duration
      = fun i =>
          ((((scanl (expStep la teo alpha) 1
                (expJacobianBases teo x0 duration)).drop
                  (duration / 10)).take duration).foldl
                    (fun a b => a + b) (0 : Vec n)) i
            / (teo.get_dt * (duration : ℝ))) ∧
    (expJacobianBases teo x0 duration).get? k
      = (if k < duration / 10 + duration then some (teo.iterate^[k] x0)
         else none) ∧
    (timeSeriesList teo x0 m).get? k
      = (if k < m then some (teo.iterate^[k + 1] x0) else none) := by
  refine ⟨rfl, ?_, ?_⟩
  · unfold expJacobianBases
    rw [orbitList_eq_map_range, get?_map_range]
  · rw [timeSeriesList_eq_map_range, get?_map_range]

/-- C8 counterexample: with `advance(x) = x + 1` and `x0 = 0` (dimension
1, `duration = 10`), the first Jacobian base point consumed by
`exponents` is `x0` itself (entry 0 equal to 0), not `advance(x0)`
(entry 0 equal to 1) as the claim states. -/
theorem c8_counterexample_first_jacobian_at_x0 :
    (expJacobianBases teoShift z0 10).head? = some z0 ∧
    teoShift.iterate z0 0 = 1 ∧ z0 0 = 0 ∧ (1 : ℝ) ≠ 0 := by
  refine ⟨?_, ?_, rfl, by norm_num⟩
  · unfold expJacobianBases
    rw [orbitList_eq_map_range, head?_map_range _ _ (by norm_num),
      Function.iterate_zero_apply]
  · show z0 0 + 1 = 1
    norm_num [z0]

/-! ## Claim C10 -/

/-- C10 (amended): each retained triple pairs the state and triangular
factor of step `duration/10 + k` with the orthonormal frame from before
that step's QR update (`expState` at the same index; the QR update maps
it to the next frame and that step's `R`); the identity matrix is the
frame of the first *emitted* step only (`expState 0 = 1`), which is
itself retained only when `duration < 10`, since the forward pass skips
the first `duration/10` triples; and the backward pass computes each `V`
as the stored pre-update frame times the normalized coefficient
matrix. -/
theorem c10_amended_pre_update_frame_pairing {n : ℕ} (la : LinAlg n)
    (teo : TEO n) (x0 : Vec n) (alpha : ℝ) (duration k : ℕ) :
    expState la teo x0 alpha 0 = 1 ∧
    (∀ t : ℕ,
      la.qr ((teo.jacobian (teo.iterate^[t] x0) alpha).dotM
          (expState la teo x0 alpha t))
        = (expState la teo x0 alpha (t + 1), stepR la teo x0 alpha t)) ∧
    ((clvForwardSeries la teo x0 alpha duration).get? k
      = if k < duration + duration / 10 then
          some (teo.iterate^[duration / 10 + k] x0,
            expState la teo x0 alpha (duration / 10 + k),
            stepR la teo x0 alpha (duration / 10 + k))
        else none) ∧
    (∀ (c : Mat n) (t : Vec n × Mat n × Mat n),
      (clvBackStep la c t).2.2.1 = t.2.1 * (clv_backward la c t.2.2).1) := by
  refine ⟨rfl, fun t => rfl, ?_, fun c t => rfl⟩
  rw [clvForwardSeries_eq, get?_map_range]

lemma expState_one_eval : expState laTrivial teoAffine z0 1 1 0 0 = 2 := by
  have h1 : expState laTrivial teoAffine z0 1 1
      = (laTrivial.qr ((teoAffine.jacobian (teoAffine.iterate^[0] z0) 1).dotM
          (expState laTrivial teoAffine z0 1 0))).1 := rfl
  rw [h1]
  show (teoAffine.jacobian (teoAffine.iterate^[0] z0) 1).dotM
      (expState laTrivial teoAffine z0 1 0) 0 0 = 2
  have h2 : norml2 (fun i' => (1 : Mat 1) i' 0) = 1 := by
    unfold norml2
    rw [Fin.sum_univ_one]
    norm_num [Matrix.one_apply]
  have h3 : norml2 z0 = 0 := by
    unfold norml2
    rw [Fin.sum_univ_one]
    norm_num [z0]
  have h0 : expState laTrivial teoAffine z0 1 0 = (1 : Mat 1) := rfl
  rw [h0]
  simp only [Jacobian.dotM, Jacobian.dot, TEO.jacobian, Matrix.of_apply,
    Function.iterate_zero_apply]
  rw [h2, h3]
  norm_num [teoAffine, z0, Matrix.one_apply]

/-- C10 counterexample: at `duration = 10` the first retained triple's
stored frame is not the identity matrix: with the concrete capability
`advance(x) = 2·x + 1` at `x0 = 0` and the concrete primitive instance
`laTrivial`, its (0,0) entry is 2, not 1 — the identity frame belongs to
emitted step 0, which the forward pass discards. -/
theorem c10_counterexample_first_retained_frame_not_identity :
    ((clvForwardSeries laTrivial teoAffine z0 1 10).head?.map
        fun t => t.2.1 0 0) = some 2 ∧
    (1 : Mat 1) 0 0 = 1 ∧ (2 : ℝ) ≠ 1 := by
  refine ⟨?_, by simp, by norm_num⟩
  rw [clvForwardSeries_eq, head?_map_range _ _ (by norm_num),
    Option.map_some']
  refine congrArg some ?_
  show expState laTrivial teoAffine z0 1 (10 / 10 + 0) 0 0 = 2
  norm_num [expState_one_eval]

/-! ## Norm lemmas -/

open scoped Matrix

lemma norml2_nonneg {n : ℕ} (v : Vec n) : 0 ≤ norml2 v := Real.sqrt_nonneg _

lemma norml2_eq_zero_iff {n : ℕ} (v : Vec n) : norml2 v = 0 ↔ v = 0 := by
  unfold norml2
  rw [Real.sqrt_eq_zero (Finset.sum_nonneg fun i _ => sq_nonneg _)]
  constructor
  · intro h
    funext i
    have hi := (Finset.sum_eq_zero_iff_of_nonneg
      (fun i _ => sq_nonneg (v i))).1 h i (Finset.mem_univ i)
    exact (pow_eq_zero_iff (two_ne_zero)).1 hi
  · intro h
    rw [h]
    simp

lemma norml2_normalize {n : ℕ} (v : Vec n) (hv : v ≠ 0) :
    norml2 (fun i => v i / norml2 v) = 1 := by
  have h0 : (0 : ℝ) ≤ ∑ i, v i ^ 2 := Finset.sum_nonneg fun i _ => sq_nonneg _
  have hpos : 0 < norml2 v := by
    rcases lt_or_eq_of_le (norml2_nonneg v) with h | h
    · exact h
    · exact absurd ((norml2_eq_zero_iff v).1 h.symm) hv
  have hsq : norml2 v ^ 2 = ∑ i, v i ^ 2 := Real.sq_sqrt h0
  show Real.sqrt (∑ i, (v i / norml2 v) ^ 2) = 1
  have hone : (∑ i, (v i / norml2 v) ^ 2) = 1 := by
    simp only [div_pow, ← Finset.sum_div, ← hsq]
    exact div_self (pow_ne_zero 2 (ne_of_gt hpos))
  rw [hone, Real.sqrt_one]

lemma sum_sq_eq_dotProduct {n : ℕ} (u : Vec n) : (∑ i, u i ^ 2) = u ⬝ᵥ u := by
  simp [Matrix.dotProduct, pow_two]

lemma norml2_mulVec_of_orthonormal {n : ℕ} (q : Mat n) (hq : qᵀ * q = 1)
    (w : Vec n) : norml2 (q.mulVec w) = norml2 w := by
  unfold norml2
  rw [sum_sq_eq_dotProduct, sum_sq_eq_dotProduct]
  have hdot : (q.mulVec w) ⬝ᵥ (q.mulVec w) = w ⬝ᵥ w := by
    rw [Matrix.dotProduct_mulVec]
    have h1 : (q.mulVec w) ᵥ* q = w ᵥ* (qᵀ * q) := by
      rw [← Matrix.vecMul_vecMul, Matrix.vecMul_transpose]
    rw [h1, hq, Matrix.vecMul_one]
  rw [hdot]

lemma col_mul_eq_mulVec {n : ℕ} (A B : Mat n) (j : Fin n) :
    (fun i => (A * B) i j) = A.mulVec (fun k => B k j) := by
  funext i
  simp [Matrix.mul_apply, Matrix.mulVec, Matrix.dotProduct]

/-! ## Claim C5 -/

/-- C5: each backward-pass step solves the upper-triangular system via
the external primitive `solve_upper r c`, column-normalizes the solution
to unit L2 norm (shown under the hypothesis that the primitive's
solution has no zero column), sets `f` to the elementwise reciprocals of
the pre-normalization column norms, and the backward scan threads the
normalized matrix as the coefficient matrix of the next (earlier)
step. -/
theorem c5_backward_step_normalization {n : ℕ} (la : LinAlg n) (c r : Mat n)
    (hcol : ∀ j : Fin n, (fun i => la.solve_upper r c i j) ≠ 0) :
    ((clv_backward la c r).1 = (normalizeCol (la.solve_upper r c)).1) ∧
    (∀ j : Fin n, norml2 (fun i => (clv_backward la c r).1 i j) = 1) ∧
    ((clv_backward la c r).2
      = fun j => 1 / norml2 (fun i => la.solve_upper r c i j)) ∧
    (∀ (x : Vec n) (q : Mat n),
      (clvBackStep la c (x, q, r)).1 = (clv_backward la c r).1) := by
  refine ⟨rfl, ?_, rfl, fun x q => rfl⟩
  intro j
  show norml2 (fun i =>
    la.solve_upper r c i j / norml2 (fun i' => la.solve_upper r c i' j)) = 1
  exact norml2_normalize _ (hcol j)

/-- Witness for C5: the hypothesis and conclusion hold at the concrete
instance `laId` (whose triangular solve returns the identity matrix) with
`c = r = 1` in dimension 1. -/
theorem c5_backward_step_normalization_witness :
    (∀ j : Fin 1, (fun i => laId.solve_upper 1 1 i j) ≠ 0) ∧
    ((clv_backward laId 1 1).1 = (normalizeCol (laId.solve_upper 1 1)).1) ∧
    (∀ j : Fin 1, norml2 (fun i => (clv_backward laId 1 1).1 i j) = 1) ∧
    ((clv_backward laId 1 1).2
      = fun j => 1 / norml2 (fun i => laId.solve_upper 1 1 i j)) ∧
    (∀ (x : Vec 1) (q : Mat 1),
      (clvBackStep laId 1 (x, q, 1)).1 = (clv_backward laId 1 1).1) := by
  have hcol : ∀ j : Fin 1, (fun i => laId.solve_upper 1 1 i j) ≠ 0 := by
    intro j h
    have h0 := congrFun h j
    rw [show laId.solve_upper 1 1 = (1 : Mat 1) from rfl] at h0
    simp [Matrix.one_apply] at h0
  exact ⟨hcol, c5_backward_step_normalization laId 1 1 hcol⟩

/-! ## Claim C6 -/

/-- C6: for a capability whose advance is the linear map `x ↦ A·x`, the
directional product of the Jacobian operator at any base point equals
`A·dx` exactly, for every direction and every `alpha` making the
finite-difference scale `s = alpha / max(‖x‖, ‖dx‖)` nonzero. -/
theorem c6_linear_map_exactness {n : ℕ} (A : Mat n) (dt : ℝ) (x dx : Vec n)
    (alpha : ℝ) (h : alpha / max (norml2 x) (norml2 dx) ≠ 0) :
    (TEO.jacobian ⟨fun v => A.mulVec v, dt⟩ x alpha).dot dx = A.mulVec dx := by
  funext i
  show (A.mulVec
        (fun i' => (alpha / max (norml2 x) (norml2 dx)) * dx i' + x i') i
      - A.mulVec x i) / (alpha / max (norml2 x) (norml2 dx))
    = A.mulVec dx i
  set s := alpha / max (norml2 x) (norml2 dx) with hs
  have hlin : A.mulVec (fun i' => s * dx i' + x i')
      = fun i2 => s * A.mulVec dx i2 + A.mulVec x i2 := by
    funext i2
    simp [Matrix.mulVec, Matrix.dotProduct, mul_add, Finset.sum_add_distrib,
      Finset.mul_sum, mul_left_comm]
  rw [hlin, add_sub_cancel_right, mul_div_cancel_left₀ _ h]

/-- Witness for C6: concrete instance in dimension 1 with `A` the
constant-2 matrix, base point 0, direction the all-ones vector and
`alpha = 1`; the scale is `1 / max(0, 1) = 1 ≠ 0`. -/
theorem c6_linear_map_exactness_witness :
    ((1 : ℝ) / max (norml2 z0) (norml2 (fun _ => 1 : Vec 1)) ≠ 0) ∧
    (TEO.jacobian ⟨fun v => (Matrix.of fun _ _ => (2 : ℝ) : Mat 1).mulVec v, 1⟩
        z0 1).dot (fun _ => 1 : Vec 1)
      = (Matrix.of fun _ _ => (2 : ℝ) : Mat 1).mulVec (fun _ => 1 : Vec 1) := by
  have h1 : norml2 (fun _ => 1 : Vec 1) = 1 := by
    unfold norml2
    rw [Fin.sum_univ_one]
    norm_num
  have h0 : norml2 z0 = 0 := by
    unfold norml2
    rw [Fin.sum_univ_one]
    norm_num [z0]
  have hne : (1 : ℝ) / max (norml2 z0) (norml2 (fun _ => 1 : Vec 1)) ≠ 0 := by
    rw [h0, h1]
    norm_num
  exact ⟨hne, c6_linear_map_exactness _ 1 z0 _ 1 hne⟩

/-! ## Claim C7 -/

lemma expState_orthonormal {n : ℕ} (la : LinAlg n) (teo : TEO n) (x0 : Vec n)
    (alpha : ℝ) (hq : ∀ A : Mat n, ((la.qr A).1)ᵀ * (la.qr A).1 = 1) :
    ∀ t : ℕ, (expState la teo x0 alpha t)ᵀ * expState la teo x0 alpha t = 1 := by
  intro t
  cases t with
  | zero =>
      show (1 : Mat n)ᵀ * 1 = 1
      rw [Matrix.transpose_one, Matrix.one_mul]
  | succ t =>
      have h : expState la teo x0 alpha (t + 1)
          = (la.qr ((teo.jacobian (teo.iterate^[t] x0) alpha).dotM
              (expState la teo x0 alpha t))).1 := rfl
      rw [h]
      exact hq _

lemma clvForwardSeries_frame_orthonormal {n : ℕ} (la : LinAlg n) (teo : TEO n)
    (x0 : Vec n) (alpha : ℝ) (duration : ℕ)
    (hq : ∀ A : Mat n, ((la.qr A).1)ᵀ * (la.qr A).1 = 1) :
    ∀ t ∈ clvForwardSeries la teo x0 alpha duration, (t.2.1)ᵀ * t.2.1 = 1 := by
  intro t ht
  rw [clvForwardSeries_eq] at ht
  rcases List.mem_map.1 ht with ⟨k, _, hk⟩
  rw [← hk]
  exact expState_orthonormal la teo x0 alpha hq _

/-- C7: under the hypotheses that the QR primitive always returns a `Q`
with orthonormal columns and that the triangular-solve primitive never
returns a matrix with a zero column, every column of every
covariant-vector matrix returned by `clv` has unit L2 norm: each such
matrix is `Q · C_now` with `C_now` column-normalized and `Q` a stored
orthonormal frame. -/
theorem c7_clv_columns_unit_norm {n : ℕ} (la : LinAlg n) (teo : TEO n)
    (x0 : Vec n) (alpha : ℝ) (duration : ℕ)
    (hq : ∀ A : Mat n, ((la.qr A).1)ᵀ * (la.qr A).1 = 1)
    (hs : ∀ (r c : Mat n) (j : Fin n), (fun i => la.solve_upper r c i j) ≠ 0) :
    ∀ rec ∈ clv la teo x0 alpha duration, ∀ j : Fin n,
      norml2 (fun i => rec.2.1 i j) = 1 := by
  intro rec hrec j
  have hrev : rec ∈ scanl (clvBackStep la) 1
      (clvForwardSeries la teo x0 alpha duration).reverse := by
    unfold clv at hrec
    exact List.mem_of_mem_drop (List.mem_reverse.1 hrec)
  rcases mem_scanl (clvBackStep la) _ 1 rec hrev with ⟨t, ht, c', hc'⟩
  have htS : t ∈ clvForwardSeries la teo x0 alpha duration :=
    List.mem_reverse.1 ht
  have hortho : (t.2.1)ᵀ * t.2.1 = 1 :=
    clvForwardSeries_frame_orthonormal la teo x0 alpha duration hq t htS
  have hV : rec.2.1 = t.2.1 * (clv_backward la c' t.2.2).1 := by
    rw [hc']
    rfl
  rw [hV, col_mul_eq_mulVec,
    norml2_mulVec_of_orthonormal t.2.1 hortho]
  show norml2 (fun i =>
    la.solve_upper t.2.2 c' i j
      / norml2 (fun i' => la.solve_upper t.2.2 c' i' j)) = 1
  exact norml2_normalize _ (hs t.2.2 c' j)

/-- Witness for C7: both hypotheses and the conclusion hold at the
concrete primitive instance `laId` (its `qr` returns the identity `Q`,
its solve returns the identity matrix) with the shift capability,
initial state 0 and `duration = 1`. -/
theorem c7_clv_columns_unit_norm_witness :
    (∀ A : Mat 1, ((laId.qr A).1)ᵀ * (laId.qr A).1 = 1) ∧
    (∀ (r c : Mat 1) (j : Fin 1), (fun i => laId.solve_upper r c i j) ≠ 0) ∧
    (∀ rec ∈ clv laId teoShift z0 1 1, ∀ j : Fin 1,
      norml2 (fun i => rec.2.1 i j) = 1) := by
  have hq : ∀ A : Mat 1, ((laId.qr A).1)ᵀ * (laId.qr A).1 = 1 := by
    intro A
    show (1 : Mat 1)ᵀ * 1 = 1
    rw [Matrix.transpose_one, Matrix.one_mul]
  have hs : ∀ (r c : Mat 1) (j : Fin 1),
      (fun i => laId.solve_upper r c i j) ≠ 0 := by
    intro r c j h
    have h0 := congrFun h j
    rw [show laId.solve_upper r c = (1 : Mat 1) from rfl] at h0
    simp [Matrix.one_apply] at h0
  exact ⟨hq, hs, c7_clv_columns_unit_norm laId teoShift z0 1 1 hq hs⟩
